import Mathlib

/-
Shallow embedding of internal/querynode/segment.go (milvus query node,
segment management layer) and proofs about its delete buffering, delete
application, primary-key existence index, pre-insert and field hydration
paths.  Native engine (segcore) calls are modelled as an explicit call
trace plus a status argument supplied by the environment; goroutine pools
only forward the call synchronously, so they are not modelled separately.
-/

namespace Milvus

/-- Timestamp is uint64 in Go; modelled as Nat.  The one place in
segment.go where uint64 wraparound is observable — the watermark + 1
threshold computed inside deleteImpl — carries an explicit % 2^64 in
the embedding. -/
abbrev Timestamp := Nat

/-- primaryKey interface from the milvus codebase; the query node only ever
constructs the int64 and varChar implementations, which are the two cases
segment.go switches on. -/
inductive PrimaryKey where
  | int64Pk (value : Int)
  | varCharPk (value : String)
deriving DecidableEq, Repr

/-- Value extractor mirroring the Go type assertion entity.(*int64PrimaryKey).Value;
total function, returns 0 on a varChar key (the Go assertion would panic there,
and theorems only use it under an all-int64 hypothesis). -/
def PrimaryKey.int64Value : PrimaryKey → Int
  | .int64Pk v => v
  | .varCharPk _ => 0

/-- Value extractor mirroring entity.(*varCharPrimaryKey).Value. -/
def PrimaryKey.varCharValue : PrimaryKey → String
  | .int64Pk _ => ""
  | .varCharPk s => s

/-- Kind test for int64 keys (pk.Type() == schemapb.DataType_Int64). -/
def PrimaryKey.isInt64 : PrimaryKey → Bool
  | .int64Pk _ => true
  | .varCharPk _ => false

/-- DeleteRecord from segment.go: one tombstone (primary key, timestamp). -/
structure DeleteRecord where
  pk : PrimaryKey
  timestamp : Timestamp
deriving DecidableEq, Repr

/-- Ordering used by ByTimestamp.Less in segment.go:
a.timestamp < b.timestamp, here in its reflexive closure form used for
the sortedness statement (ascending by timestamp). -/
def recLE (a b : DeleteRecord) : Prop := a.timestamp ≤ b.timestamp

instance : DecidableRel recLE := fun a b => Nat.decLe a.timestamp b.timestamp

instance : IsTotal DeleteRecord recLE := ⟨fun a b => Nat.le_total a.timestamp b.timestamp⟩

instance : IsTrans DeleteRecord recLE := ⟨fun _ _ _ hab hbc => Nat.le_trans hab hbc⟩

/-- Binary-search loop of sort.Search from the Go standard library:
while i < j, probe h = (i+j)/2, and narrow to the half that keeps the
first index with f true.  The fuel argument only bounds the iteration
count (the interval j - i strictly shrinks every step, so fuel ≥ j - i
makes the fuel case unreachable); it keeps the recursion structural so
that the definition computes. -/
def goSearchLoop (f : Nat → Bool) : Nat → Nat → Nat → Nat
  | 0, i, _ => i
  | fuel + 1, i, j =>
    if i < j then
      if f ((i + j) / 2) then goSearchLoop f fuel i ((i + j) / 2)
      else goSearchLoop f fuel ((i + j) / 2 + 1) j
    else i

/-- sort.Search(n, f) from the Go standard library: smallest index in
[0, n] at which f becomes true, assuming f is monotone. -/
def goSearch (n : Nat) (f : Nat → Bool) : Nat := goSearchLoop f n 0 n

/-- Conditional gap-6 comparison and swap performed by the Go 1.18
sort.Sort quickSort for slice ranges of at most 12 elements
(for i := a+6; i < b; i++ with if data.Less(i, i-6) then data.Swap(i, i-6)),
expressed on lists: one step of that loop at index i. -/
def condSwapGap6 (acc : List DeleteRecord) (i : Nat) : List DeleteRecord :=
  if 6 ≤ i then
    match acc.get? i, acc.get? (i - 6) with
    | some x, some y =>
        if x.timestamp < y.timestamp then (acc.set i y).set (i - 6) x else acc
    | _, _ => acc
  else acc

/-- Gap-6 shell pass of the Go 1.18 quickSort path for short slices. -/
def shellPass (l : List DeleteRecord) : List DeleteRecord :=
  (List.range l.length).foldl condSwapGap6 l

/-- Embedding of sort.Sort(ByTimestamp(records)) as executed by the Go
1.18 standard library (the toolchain of this milvus generation) on slices
of at most 12 elements: the gap-6 shell pass followed by an insertion
sort (List.insertionSort with the non-strict timestamp order computes
exactly the stable in-place insertion sort Go runs).  For longer slices
Go enters the quicksort path, which may order equal timestamps
differently again; the properties proved below (ascending order and
permutation) hold for either, and the instability counterexample uses an
8-element slice on which this definition is the exact Go behaviour. -/
def goSortRecords (l : List DeleteRecord) : List DeleteRecord :=
  List.insertionSort recLE (shellPass l)

/-- Error values surfaced by segment.go; unhealthy carries the segment ID
as in fmt.Errorf with ErrSegmentUnhealthy. -/
inductive SegErr where
  | unhealthy (segmentID : Int)
  | emptyPks
  | lengthMismatch
  | invalidPkType
  | native (op : String)
deriving DecidableEq, Repr

/-- DeleteRecords from segment.go: tombstone buffer with its one-way
flushed flag (the mutex is the atomicity boundary and needs no model for
the sequential contracts proved here). -/
structure DeleteRecords where
  records : List DeleteRecord
  flushed : Bool
deriving DecidableEq, Repr

/-- TryAppend: refuse once flushed (before touching any input),
otherwise append each (pk, timestamp) pair.  The Go loop indexes
timestamps by the pk index, so on an open buffer it panics with an
out-of-range index whenever keys outnumber timestamps: that panic is
modelled as none (the partially appended records the Go panic leaves
behind are not modelled, since nothing observes the buffer after a
panic).  When timestamps are at least as many as keys the loop equals
zipWith, which ignores surplus timestamps just as the loop does. -/
def DeleteRecords.tryAppend (r : DeleteRecords) (pks : List PrimaryKey)
    (timestamps : List Timestamp) : Option (Bool × DeleteRecords) :=
  if r.flushed then some (false, r)
  else if timestamps.length < pks.length then none
  else some (true, { r with records := r.records ++ List.zipWith DeleteRecord.mk pks timestamps })

/-- Flush: sort the buffer by timestamp with sort.Sort, project keys and
timestamps, invoke the handler once; on success clear the buffer and set
flushed, on failure keep the (now sorted, Go sorts in place) records and
leave the flag untouched.  The handler side effects (in Go, writes
through the closure) are returned through the sigma component. -/
def DeleteRecords.flush {σ : Type} (r : DeleteRecords)
    (handler : List PrimaryKey → List Timestamp → Except SegErr Unit × σ) :
    Except SegErr Unit × DeleteRecords × σ :=
  let sorted := goSortRecords r.records
  let pks := sorted.map DeleteRecord.pk
  let timestamps := sorted.map DeleteRecord.timestamp
  match handler pks timestamps with
  | (.error e, out) => (.error e, { records := sorted, flushed := r.flushed }, out)
  | (.ok _, out) => (.ok (), { records := [], flushed := true }, out)

/-- CStatus returned by segcore calls; error_code 0 is success
(HandleCStatus turns any other code into a descriptive Go error). -/
structure CStatus where
  errorCode : Nat
deriving DecidableEq, Repr

/-- Successful engine status. -/
def CStatus.ok : CStatus := ⟨0⟩

/-- Key-set wire representation schemapb.IDs built by deleteImpl and
segmentLoadDeletedRecord before proto marshalling (the marshalling
itself cannot fail on these messages and is not modelled). -/
inductive IdsBlob where
  | intId (data : List Int)
  | strId (data : List String)
deriving DecidableEq, Repr

/-- Native engine boundary: every cgo submission relevant to the claims,
recorded as an explicit call trace. -/
inductive EngineCall where
  | deleteCall (ids : IdsBlob) (timestamps : List Timestamp)
  | preInsertCall (numRecords : Int)
  | loadDeletedRecordCall (ids : IdsBlob) (timestamps : List Timestamp) (rowCount : Int)
  | updateFieldRawDataSizeCall (fieldID numRows fieldDataSize : Int)
deriving DecidableEq, Repr

/-- Canonical byte encoding of a uint64 value, least significant byte
first (common.Endian is little endian in milvus). -/
def leBytes8 (u : Nat) : List Nat :=
  (List.range 8).map fun k => u / 256 ^ k % 256

/-- Bytes written by common.Endian.PutUint64(buf, uint64(int64Value)):
the two-complement uint64 image of the int64 value. -/
def encodeInt64Pk (v : Int) : List Nat :=
  leBytes8 (v % (2 ^ 64 : Int)).toNat

/-- Bytes fed to PkFilter.AddString: the UTF-8 bytes of the string key. -/
def encodeStringPk (s : String) : List Nat :=
  s.toUTF8.toList.map UInt8.toNat

/-- Canonical filter encoding of a primary key, combining the two cases
of the switch in updateBloomFilter. -/
def encodePk : PrimaryKey → List Nat
  | .int64Pk v => encodeInt64Pk v
  | .varCharPk s => encodeStringPk s

/-- Modelled from the spec: storage.PkStatistics (internal/storage, not
under src/) is one existence-index generation, a mutable bloom filter
plus running min and max of the primary keys.  The bloom filter is
modelled as the list of byte strings added to it, which preserves the
no-false-negative guarantee the spec states (a positive is only a
candidate; an added key always tests positive). -/
structure PkStatistics where
  minPk : Option PrimaryKey
  maxPk : Option PrimaryKey
  pkFilterEntries : List (List Nat)
deriving DecidableEq, Repr

/-- Modelled from the spec: storage.PkStatistics.PkExist reports whether
the generation may contain the key; with the filter modelled as its
added entries this is membership of the canonical key encoding. -/
def PkStatistics.pkExist (st : PkStatistics) (pk : PrimaryKey) : Bool :=
  decide (encodePk pk ∈ st.pkFilterEntries)

/-- Order on primary keys used by min and max maintenance: keys of the
same kind compare by value, mismatched kinds do not compare (milvus
returns false from LT and GT there). -/
def pkLess : PrimaryKey → PrimaryKey → Bool
  | .int64Pk a, .int64Pk b => decide (a < b)
  | .varCharPk a, .varCharPk b => decide (a < b)
  | _, _ => false

/-- Modelled from the spec: storage.PkStatistics.UpdateMinMax keeps the
running min and max of observed primary keys. -/
def PkStatistics.updateMinMax (st : PkStatistics) (pk : PrimaryKey) : PkStatistics :=
  let newMin := match st.minPk with
    | none => some pk
    | some m => if pkLess pk m then some pk else some m
  let newMax := match st.maxPk with
    | none => some pk
    | some m => if pkLess m pk then some pk else some m
  { st with minPk := newMin, maxPk := newMax }

/-- Fresh current generation allocated by InitCurrentStat
(bloom.NewWithEstimates with the fixed size and false-positive-rate
constants; the constants do not appear in the abstraction). -/
def emptyPkStatistics : PkStatistics := ⟨none, none, []⟩

/-- Segment type: commonpb.Segment restricted to the two values
segment.go distinguishes. -/
inductive SegType where
  | growing
  | sealed
deriving DecidableEq, Repr

/-- Segment from segment.go, restricted to the fields the claims touch:
identity, type, the one-way destroyed flag (healthy = not destroyed),
the lazy bloom-filter loading flag, the tombstone buffer, the delete
watermark, and the two existence-index generations.  The reader/writer
lock is the atomicity boundary of the concurrent code; the sequential
contracts proved here are about the protected bodies. -/
structure Segment where
  segmentID : Int
  segmentType : SegType
  destroyed : Bool
  lazyLoading : Bool
  deleteBuffer : DeleteRecords
  flushedDeletedTimestamp : Timestamp
  currentStat : Option PkStatistics
  historyStats : List PkStatistics
deriving DecidableEq, Repr

/-- healthy() from segment.go: safe to use the native handle. -/
def Segment.healthy (s : Segment) : Bool := !s.destroyed

/-- setUnhealthy() from segment.go: one-way transition flipped by
deleteSegment while holding the exclusive lock. -/
def Segment.setUnhealthy (s : Segment) : Segment :=
  { s with destroyed := true }

/-- updateBloomFilter from segment.go: lazily create the current
generation, then per key update min and max and add the canonical byte
encoding to the filter (int64 keys as the little-endian uint64 bytes,
varChar keys as their raw string bytes).  The Go default branch panics
on any other key kind; the model has exactly the two kinds. -/
def Segment.updateBloomFilter (s : Segment) (pks : List PrimaryKey) : Segment :=
  let cur := s.currentStat.getD emptyPkStatistics
  let cur2 := pks.foldl
    (fun st pk =>
      let st2 := st.updateMinMax pk
      match pk with
      | .int64Pk v =>
          { st2 with pkFilterEntries := st2.pkFilterEntries ++ [encodeInt64Pk v] }
      | .varCharPk str =>
          { st2 with pkFilterEntries := st2.pkFilterEntries ++ [encodeStringPk str] })
    cur
  { s with currentStat := some cur2 }

/-- isPKExist from segment.go: conservatively true while the bloom
filter is lazily loading, otherwise true as soon as the current
generation or any historical generation reports the key. -/
def Segment.isPKExist (s : Segment) (pk : PrimaryKey) : Bool :=
  if s.lazyLoading then true
  else if (match s.currentStat with
           | some st => st.pkExist pk
           | none => false) then true
  else s.historyStats.any fun st => st.pkExist pk

/-- Collector for the int64 marshal loop of deleteImpl and
segmentLoadDeletedRecord; none models the Go panic of the type
assertion on a mixed-kind key list. -/
def collectInt64 : List PrimaryKey → Option (List Int)
  | [] => some []
  | .int64Pk v :: rest => (collectInt64 rest).map fun l => v :: l
  | .varCharPk _ :: _ => none

/-- Collector for the varChar marshal loop. -/
def collectVarChar : List PrimaryKey → Option (List String)
  | [] => some []
  | .varCharPk s :: rest => (collectVarChar rest).map fun l => s :: l
  | .int64Pk _ :: _ => none

/-- Key-set marshalling switch shared by deleteImpl and
segmentLoadDeletedRecord: dispatch on the type of the first key and
collect the values; none stands for the unreachable cases (empty list,
whose head access would panic, and mixed kinds, where the Go type
assertion panics; the Go default branch for other key types has no
counterpart because the model has exactly the two kinds segment.go
handles). -/
def marshalIds : List PrimaryKey → Option IdsBlob
  | [] => none
  | .int64Pk v :: rest => (collectInt64 (.int64Pk v :: rest)).map IdsBlob.intId
  | .varCharPk s :: rest => (collectVarChar (.varCharPk s :: rest)).map IdsBlob.strId

/-- deleteImpl from segment.go: fail fast when unhealthy; binary-search
(sort.Search) the first timestamp at or above the threshold
flushedDeletedTimestamp + 1 — computed in uint64, hence the explicit
% 2^64, which wraps the threshold to 0 at watermark 2^64 - 1 — and drop
the records before it; if everything is dropped succeed without an
engine call; otherwise marshal the remaining keys and submit one engine
delete call whose status the environment supplies.  The function never
writes any segment field, so the unchanged state is returned alongside
the result and the engine-call trace. -/
def Segment.deleteImpl (s : Segment) (deleteStatus : CStatus)
    (pks : List PrimaryKey) (timestamps : List Timestamp) :
    Except SegErr Unit × Segment × List EngineCall :=
  if s.destroyed then (.error (.unhealthy s.segmentID), s, [])
  else
    let start := goSearch timestamps.length
      fun i => decide ((s.flushedDeletedTimestamp + 1) % 2 ^ 64 ≤ timestamps.getD i 0)
    if start = timestamps.length then (.ok (), s, [])
    else
      let pks2 := pks.drop start
      let timestamps2 := timestamps.drop start
      match marshalIds pks2 with
      | none => (.error .invalidPkType, s, [])
      | some ids =>
          if deleteStatus.errorCode ≠ 0 then
            (.error (.native "flush delete records failed"), s, [.deleteCall ids timestamps2])
          else (.ok (), s, [.deleteCall ids timestamps2])

/-- segmentDelete from segment.go: reject empty keys, reject mismatched
lengths, then buffer if the tombstone buffer is still open, otherwise
apply directly through deleteImpl.  The none (panic) arm of tryAppend is
unreachable here — the length guard just above makes the timestamp list
as long as the key list — and is mapped to the same length error for
totality. -/
def Segment.segmentDelete (s : Segment) (deleteStatus : CStatus)
    (entityIDs : List PrimaryKey) (timestamps : List Timestamp) :
    Except SegErr Unit × Segment × List EngineCall :=
  if entityIDs.length ≤ 0 then (.error .emptyPks, s, [])
  else if entityIDs.length ≠ timestamps.length then (.error .lengthMismatch, s, [])
  else
    match s.deleteBuffer.tryAppend entityIDs timestamps with
    | some res =>
        if res.1 then (.ok (), { s with deleteBuffer := res.2 }, [])
        else s.deleteImpl deleteStatus entityIDs timestamps
    | none => (.error .lengthMismatch, s, [])

/-- FlushDelete from segment.go: drain the tombstone buffer through
deleteImpl and, only when the handler body succeeds on a non-empty
batch, advance the watermark to the last (maximum) sorted timestamp. -/
def Segment.flushDelete (s : Segment) (deleteStatus : CStatus) :
    Except SegErr Unit × Segment × List EngineCall :=
  let handler := fun (pks : List PrimaryKey) (tss : List Timestamp) =>
    if pks.length = 0 then ((.ok () : Except SegErr Unit), (s, ([] : List EngineCall)))
    else
      match s.deleteImpl deleteStatus pks tss with
      | (.error e, s2, tr) => (.error e, (s2, tr))
      | (.ok _, s2, tr) =>
          (.ok (), ({ s2 with flushedDeletedTimestamp := tss.getD (pks.length - 1) 0 }, tr))
  let res := s.deleteBuffer.flush handler
  (res.1, { res.2.2.1 with deleteBuffer := res.2.1 }, res.2.2.2)

/-- segmentLoadDeletedRecord from segment.go: first try to buffer — a
still-open buffer absorbs any input whose timestamps are at least as
many as its keys (an empty key list included), and panics (none, no
error return) when keys outnumber timestamps; only on the post-flush
path check health, reject empty keys, marshal and submit the engine
load call.  There is no length validation anywhere on this path. -/
def Segment.segmentLoadDeletedRecord (s : Segment) (status : CStatus)
    (primaryKeys : List PrimaryKey) (timestamps : List Timestamp) (rowCount : Int) :
    Option (Except SegErr Unit × Segment × List EngineCall) :=
  match s.deleteBuffer.tryAppend primaryKeys timestamps with
  | none => none
  | some res =>
    if res.1 then some (.ok (), { s with deleteBuffer := res.2 }, [])
    else if s.destroyed then some (.error (.unhealthy s.segmentID), s, [])
    else if primaryKeys.length ≤ 0 then some (.error .emptyPks, s, [])
    else
      match marshalIds primaryKeys with
      | none => some (.error .invalidPkType, s, [])
      | some ids =>
          if status.errorCode ≠ 0 then
            some (.error (.native "LoadDeletedRecord failed"), s,
              [.loadDeletedRecordCall ids timestamps rowCount])
          else some (.ok (), s, [.loadDeletedRecordCall ids timestamps rowCount])

/-- segmentPreInsert from segment.go: a non-growing segment returns
offset 0 with no error before even looking at the handle; a growing
segment fails fast when unhealthy, otherwise submits the engine
PreInsert call, whose status and reserved offset the environment
supplies, and surfaces a native error on non-zero status. -/
def Segment.segmentPreInsert (s : Segment) (status : CStatus) (engineOffset : Int)
    (numOfRecords : Int) : Except SegErr Int × List EngineCall :=
  if s.segmentType ≠ SegType.growing then (.ok 0, [])
  else if s.destroyed then (.error (.unhealthy s.segmentID), [])
  else
    if status.errorCode ≠ 0 then
      (.error (.native "PreInsert failed"), [.preInsertCall numOfRecords])
    else (.ok engineOffset, [.preInsertCall numOfRecords])

/-- Binlog descriptor entry (datapb.Binlog): entry count, storage path
and byte size. -/
structure Binlog where
  entriesNum : Int
  logPath : String
  logSize : Int
deriving DecidableEq, Repr

/-- FieldBinlog descriptor (datapb.FieldBinlog). -/
structure FieldBinlog where
  fieldID : Int
  binlogs : List Binlog
deriving DecidableEq, Repr

/-- UpdateFieldRawDataSize from segment.go: sums the binlog byte sizes
and submits the engine call.  Unlike every other handle-touching method
it takes no lock and performs no health check, so the call is submitted
regardless of the destroyed flag. -/
def Segment.updateFieldRawDataSize (_s : Segment) (status : CStatus) (numRows : Int)
    (fieldBinlog : FieldBinlog) : Except SegErr Unit × List EngineCall :=
  let fieldID := fieldBinlog.fieldID
  let fieldDataSize := fieldBinlog.binlogs.foldl (fun acc b => acc + b.logSize) 0
  let tr := [EngineCall.updateFieldRawDataSizeCall fieldID numRows fieldDataSize]
  if status.errorCode ≠ 0 then (.error (.native "updateFieldRawDataSize failed"), tr)
  else (.ok (), tr)

/-- Loop body of getFieldDataPath from segment.go: walk the ordered
binlog list, and either stop inside the first binlog whose entry count
exceeds the running offset or subtract that count and continue; when the
loop walks off the end the Go dataPath keeps its zero value, the empty
string, and the residual offset is returned unchanged. -/
def getFieldDataPathLoop : List Binlog → Int → String × Int
  | [], offsetInBinlog => ("", offsetInBinlog)
  | b :: rest, offsetInBinlog =>
    if offsetInBinlog < b.entriesNum then (b.logPath, offsetInBinlog)
    else getFieldDataPathLoop rest (offsetInBinlog - b.entriesNum)

/-- IndexedFieldInfo restricted to the binlog descriptor
(the index descriptor enters only through the hasLoadIndex oracle). -/
structure IndexedFieldInfo where
  fieldBinlog : FieldBinlog
deriving DecidableEq, Repr

/-- getFieldDataPath from segment.go. -/
def Segment.getFieldDataPath (_s : Segment) (info : IndexedFieldInfo) (offset : Int) :
    String × Int :=
  getFieldDataPathLoop info.fieldBinlog.binlogs offset

/-- Field data types dispatched by fillFieldData in segment.go (the
schema types it has cases for; any other type is a malformed-input
error before a read is attempted). -/
inductive FieldDataType where
  | boolData
  | int8Data
  | int16Data
  | int32Data
  | int64Data
  | floatData
  | doubleData
  | stringData
  | varCharData
  | binaryVector
  | floatVector
deriving DecidableEq, Repr

/-- Modelled from the spec: typeutil.IsVectorType (internal/util/typeutil,
not under src/) holds exactly for the binary and float vector types,
matching the "skip non-vector fields" hydration rule. -/
def isVectorType : FieldDataType → Bool
  | .binaryVector => true
  | .floatVector => true
  | _ => false

/-- Remote blob store request issued during hydration: a ranged ReadAt
for fixed-width types and vectors, a whole-object Read for bool and
string payloads. -/
inductive ReadReq where
  | readAt (path : String) (byteOffset byteLen : Int)
  | readAll (path : String)
deriving DecidableEq, Repr

/-- Storage path of a request. -/
def ReadReq.path : ReadReq → String
  | .readAt p _ _ => p
  | .readAll p => p

/-- Read request computed by the fillFieldData dispatch in segment.go
for one row: per type the row byte width, the byte offset
offset * rowBytes, and the length rowBytes (binary vector rows are dim/8
bytes, float vector rows dim*4 bytes; bool and string binlogs are read
whole). -/
def fillFieldDataReq (ty : FieldDataType) (dim : Int) (dataPath : String) (offset : Int) :
    ReadReq :=
  match ty with
  | .binaryVector => .readAt dataPath (offset * (dim / 8)) (dim / 8)
  | .floatVector => .readAt dataPath (offset * (dim * 4)) (dim * 4)
  | .boolData => .readAll dataPath
  | .stringData => .readAll dataPath
  | .varCharData => .readAll dataPath
  | .int8Data => .readAt dataPath (offset * 1) 1
  | .int16Data => .readAt dataPath (offset * 2) 2
  | .int32Data => .readAt dataPath (offset * 4) 4
  | .int64Data => .readAt dataPath (offset * 8) 8
  | .floatData => .readAt dataPath (offset * 4) 4
  | .doubleData => .readAt dataPath (offset * 8) 8

/-- One retrieve-result field as seen by fillIndexedFieldsData: its
field ID, declared data type and vector dimension. -/
structure FieldMeta where
  fieldID : Int
  dataType : FieldDataType
  dim : Int
deriving DecidableEq, Repr

/-- Inner row loop of fillIndexedFieldsData: for each requested row
offset, locate the owning binlog and residual offset, issue the read
through the chunk manager, and abort the whole retrieve on the first
failure.  The trace lists the requests actually issued. -/
def fillOffsetsLoop (s : Segment) (vcm : ReadReq → Except SegErr Unit)
    (info : IndexedFieldInfo) (f : FieldMeta) :
    List Int → Except SegErr Unit × List ReadReq
  | [] => (.ok (), [])
  | offset :: rest =>
    let pr := s.getFieldDataPath info offset
    let req := fillFieldDataReq f.dataType f.dim pr.1 pr.2
    match vcm req with
    | .error e => (.error e, [req])
    | .ok _ =>
        let tail := fillOffsetsLoop s vcm info f rest
        (tail.1, req :: tail.2)

/-- Outer field loop of fillIndexedFieldsData: skip non-vector fields,
fields without a loaded index, fields whose index retains raw data, and
fields without registered binlog info (getIndexedFieldInfo failure is
skipped with continue); hydrate the rest row by row. -/
def fillFieldsLoop (s : Segment) (hasIdx hasRaw : Int → Bool)
    (infos : Int → Option IndexedFieldInfo) (vcm : ReadReq → Except SegErr Unit)
    (offsets : List Int) : List FieldMeta → Except SegErr Unit × List ReadReq
  | [] => (.ok (), [])
  | f :: rest =>
    if !isVectorType f.dataType then fillFieldsLoop s hasIdx hasRaw infos vcm offsets rest
    else if !hasIdx f.fieldID then fillFieldsLoop s hasIdx hasRaw infos vcm offsets rest
    else if hasRaw f.fieldID then fillFieldsLoop s hasIdx hasRaw infos vcm offsets rest
    else
      match infos f.fieldID with
      | none => fillFieldsLoop s hasIdx hasRaw infos vcm offsets rest
      | some info =>
          match fillOffsetsLoop s vcm info f offsets with
          | (.error e, reqs) => (.error e, reqs)
          | (.ok _, reqs) =>
              let tail := fillFieldsLoop s hasIdx hasRaw infos vcm offsets rest
              (tail.1, reqs ++ tail.2)

/-- fillIndexedFieldsData from segment.go over a retrieve result given
as its field list and row offsets; hasIdx and hasRaw stand for
hasLoadIndexForIndexedField and the engine-backed hasRawData, infos for
the indexedFieldInfos map, vcm for the chunk manager combined with the
per-type decode step (a decode failure surfaces through the same error
path as the read itself). -/
def Segment.fillIndexedFieldsData (s : Segment) (hasIdx hasRaw : Int → Bool)
    (infos : Int → Option IndexedFieldInfo) (vcm : ReadReq → Except SegErr Unit)
    (fields : List FieldMeta) (offsets : List Int) :
    Except SegErr Unit × List ReadReq :=
  fillFieldsLoop s hasIdx hasRaw infos vcm offsets fields

/-- Invocation-logging wrapper around a flush handler: same outcome and
side state, plus the list of (keys, timestamps) argument pairs the
handler was invoked with, used to state that Flush applies its handler
exactly once. -/
def instrumented {σ : Type} (handler : List PrimaryKey → List Timestamp →
    Except SegErr Unit × σ) :
    List PrimaryKey → List Timestamp →
      Except SegErr Unit × (σ × List (List PrimaryKey × List Timestamp)) :=
  fun pks tss => ((handler pks tss).1, ((handler pks tss).2, [(pks, tss)]))

/-- Buffer content on which Go sort.Sort is observably unstable: two
records share timestamp 5 (keys 0 then 1, in buffered order), and the
record with key 6 and the small timestamp 1 sits at index 6, so the
gap-6 shell pre-pass swaps it under index 0 and carries key 0 to index
6, behind key 1. -/
def unstableRecords : List DeleteRecord :=
  [⟨.int64Pk 0, 5⟩, ⟨.int64Pk 1, 5⟩, ⟨.int64Pk 2, 9⟩, ⟨.int64Pk 3, 9⟩,
   ⟨.int64Pk 4, 9⟩, ⟨.int64Pk 5, 9⟩, ⟨.int64Pk 6, 1⟩, ⟨.int64Pk 7, 9⟩]

/-! Helper lemmas about the embedded standard-library routines. -/

theorem goSearchLoop_all_false (f : Nat → Bool) :
    ∀ (fuel i j : Nat), j - i ≤ fuel → i ≤ j →
      (∀ k, i ≤ k → k < j → f k = false) → goSearchLoop f fuel i j = j := by
  intro fuel
  induction fuel with
  | zero =>
    intro i j hf hij _
    have : i = j := by omega
    subst this
    rfl
  | succ fuel ih =>
    intro i j hf hij hall
    by_cases hlt : i < j
    · have hm1 : i ≤ (i + j) / 2 := by
        rw [Nat.le_div_iff_mul_le (by omega : 0 < 2)]; omega
      have hm2 : (i + j) / 2 < j := by
        rw [Nat.div_lt_iff_lt_mul (by omega : 0 < 2)]; omega
      have hfm : f ((i + j) / 2) = false := hall _ hm1 hm2
      rw [goSearchLoop, if_pos hlt, hfm, if_neg Bool.false_ne_true]
      exact ih ((i + j) / 2 + 1) j (by omega) (by omega)
        (fun k hk1 hk2 => hall k (by omega) hk2)
    · have : i = j := by omega
      subst this
      rw [goSearchLoop, if_neg hlt]

theorem goSearch_all_false (n : Nat) (f : Nat → Bool)
    (h : ∀ k, k < n → f k = false) : goSearch n f = n :=
  goSearchLoop_all_false f n 0 n (by omega) (by omega) (fun k _ hk => h k hk)

theorem goSearchLoop_boundary (f : Nat → Bool) :
    ∀ (fuel i j : Nat), j - i ≤ fuel → i ≤ j →
      (∀ k l, k ≤ l → l < j → f k = true → f l = true) →
      i ≤ goSearchLoop f fuel i j ∧ goSearchLoop f fuel i j ≤ j ∧
      (∀ k, i ≤ k → k < goSearchLoop f fuel i j → f k = false) ∧
      (∀ k, goSearchLoop f fuel i j ≤ k → k < j → f k = true) := by
  intro fuel
  induction fuel with
  | zero =>
    intro i j hf hij _
    have : i = j := by omega
    subst this
    refine ⟨Nat.le_refl _, Nat.le_refl _, ?_, ?_⟩
    · intro k h1 h2
      rw [goSearchLoop] at h2
      omega
    · intro k h1 h2
      rw [goSearchLoop] at h1
      omega
  | succ fuel ih =>
    intro i j hf hij hmono
    by_cases hlt : i < j
    · have hm1 : i ≤ (i + j) / 2 := by
        rw [Nat.le_div_iff_mul_le (by omega : 0 < 2)]; omega
      have hm2 : (i + j) / 2 < j := by
        rw [Nat.div_lt_iff_lt_mul (by omega : 0 < 2)]; omega
      rw [goSearchLoop, if_pos hlt]
      cases hfm : f ((i + j) / 2) with
      | true =>
        rw [if_pos rfl]
        have hrec := ih i ((i + j) / 2) (by omega) (by omega)
          (fun k l hkl hl hfk => hmono k l hkl (by omega) hfk)
        refine ⟨hrec.1, by omega, hrec.2.2.1, ?_⟩
        intro k h1 h2
        by_cases hk : k < (i + j) / 2
        · exact hrec.2.2.2 k h1 hk
        · exact hmono ((i + j) / 2) k (by omega) h2 hfm
      | false =>
        rw [if_neg Bool.false_ne_true]
        have hrec := ih ((i + j) / 2 + 1) j (by omega) (by omega) hmono
        refine ⟨by omega, hrec.2.1, ?_, hrec.2.2.2⟩
        intro k h1 h2
        by_cases hk : (i + j) / 2 + 1 ≤ k
        · exact hrec.2.2.1 k hk h2
        · cases hfk : f k with
          | true =>
            have : f ((i + j) / 2) = true := hmono k _ (by omega) hm2 hfk
            rw [this] at hfm
            exact absurd hfm (by simp)
          | false => rfl
    · have : i = j := by omega
      subst this
      rw [goSearchLoop, if_neg hlt]
      refine ⟨Nat.le_refl _, Nat.le_refl _, ?_, ?_⟩ <;> intro k h1 h2 <;> omega

theorem goSearch_boundary (n : Nat) (f : Nat → Bool)
    (hmono : ∀ k l, k ≤ l → l < n → f k = true → f l = true) :
    goSearch n f ≤ n ∧
    (∀ k, k < goSearch n f → f k = false) ∧
    (∀ k, goSearch n f ≤ k → k < n → f k = true) := by
  have h := goSearchLoop_boundary f n 0 n (by omega) (by omega) hmono
  exact ⟨h.2.1, fun k hk => h.2.2.1 k (by omega) hk, h.2.2.2⟩

theorem cons_set_perm {α : Type} : ∀ (t : List α) (i : Nat) (x y : α),
    t.get? i = some x → (x :: t.set i y).Perm (y :: t)
  | [], i, _, _, h => by simp at h
  | c :: t, 0, x, y, h => by
    simp only [List.get?] at h
    injection h with h
    subst h
    exact List.Perm.swap y c t
  | c :: t, i + 1, x, y, h => by
    simp only [List.get?] at h
    have ih := cons_set_perm t i x y h
    have s1 : (x :: c :: t.set i y).Perm (c :: x :: t.set i y) := List.Perm.swap c x _
    have s2 : (c :: x :: t.set i y).Perm (c :: y :: t) := ih.cons c
    have s3 : (c :: y :: t).Perm (y :: c :: t) := List.Perm.swap y c t
    exact s1.trans (s2.trans s3)

theorem swap_set_perm {α : Type} : ∀ (l : List α) (i j : Nat) (x y : α), j < i →
    l.get? i = some x → l.get? j = some y → ((l.set i y).set j x).Perm l
  | [], _, _, _, _, _, hi, _ => by simp at hi
  | b :: t, i, 0, x, y, hji, hi, hj => by
    obtain ⟨i2, rfl⟩ : ∃ i2, i = i2 + 1 := ⟨i - 1, by omega⟩
    simp only [List.get?] at hi hj
    injection hj with hj
    subst hj
    exact cons_set_perm t i2 x b hi
  | b :: t, i, j + 1, x, y, hji, hi, hj => by
    obtain ⟨i2, rfl⟩ : ∃ i2, i = i2 + 1 := ⟨i - 1, by omega⟩
    simp only [List.get?] at hi hj
    exact (swap_set_perm t i2 j x y (by omega) hi hj).cons b

theorem condSwapGap6_perm (acc : List DeleteRecord) (i : Nat) :
    (condSwapGap6 acc i).Perm acc := by
  unfold condSwapGap6
  split
  · split
    · split
      · next x y hx hy _ =>
        exact swap_set_perm acc i (i - 6) x y (by omega) hx hy
      · exact List.Perm.refl _
    · exact List.Perm.refl _
  · exact List.Perm.refl _

theorem foldl_condSwap_perm : ∀ (idxs : List Nat) (acc : List DeleteRecord),
    (idxs.foldl condSwapGap6 acc).Perm acc
  | [], _ => List.Perm.refl _
  | i :: rest, acc =>
    (foldl_condSwap_perm rest (condSwapGap6 acc i)).trans (condSwapGap6_perm acc i)

theorem shellPass_perm (l : List DeleteRecord) : (shellPass l).Perm l :=
  foldl_condSwap_perm (List.range l.length) l

theorem goSortRecords_perm (l : List DeleteRecord) : (goSortRecords l).Perm l :=
  (List.perm_insertionSort recLE (shellPass l)).trans (shellPass_perm l)

theorem goSortRecords_sorted (l : List DeleteRecord) :
    List.Sorted recLE (goSortRecords l) :=
  List.sorted_insertionSort recLE (shellPass l)

theorem collectInt64_eq : ∀ (pks : List PrimaryKey),
    (∀ p ∈ pks, p.isInt64 = true) →
    collectInt64 pks = some (pks.map PrimaryKey.int64Value)
  | [], _ => rfl
  | p :: rest, h => by
    have hp := h p (by simp)
    cases p with
    | varCharPk s => simp [PrimaryKey.isInt64] at hp
    | int64Pk v =>
      have ih := collectInt64_eq rest (fun q hq => h q (by simp [hq]))
      simp [collectInt64, ih, PrimaryKey.int64Value]

theorem marshalIds_int64 (pks : List PrimaryKey) (hne : pks ≠ [])
    (h : ∀ p ∈ pks, p.isInt64 = true) :
    marshalIds pks = some (.intId (pks.map PrimaryKey.int64Value)) := by
  match pks, hne with
  | p :: rest, _ =>
    have hp := h p (by simp)
    cases p with
    | varCharPk s => simp [PrimaryKey.isInt64] at hp
    | int64Pk v =>
      rw [marshalIds, collectInt64_eq _ h]
      rfl

theorem collectVarChar_eq : ∀ (pks : List PrimaryKey),
    (∀ p ∈ pks, p.isInt64 = false) →
    collectVarChar pks = some (pks.map PrimaryKey.varCharValue)
  | [], _ => rfl
  | p :: rest, h => by
    have hp := h p (by simp)
    cases p with
    | int64Pk v => simp [PrimaryKey.isInt64] at hp
    | varCharPk str =>
      have ih := collectVarChar_eq rest (fun q hq => h q (by simp [hq]))
      simp [collectVarChar, ih, PrimaryKey.varCharValue]

theorem marshalIds_varChar (pks : List PrimaryKey) (hne : pks ≠ [])
    (h : ∀ p ∈ pks, p.isInt64 = false) :
    marshalIds pks = some (.strId (pks.map PrimaryKey.varCharValue)) := by
  match pks, hne with
  | p :: rest, _ =>
    have hp := h p (by simp)
    cases p with
    | int64Pk v => simp [PrimaryKey.isInt64] at hp
    | varCharPk str =>
      rw [marshalIds, collectVarChar_eq _ h]
      rfl

/-! Claim theorems. -/

/-- C5: re-applying through deleteImpl a delete batch, sorted ascending
by timestamp, whose timestamps all lie at or below the current watermark
(so in particular whose maximum timestamp is at most the watermark) is a
no-op on a healthy segment: the binary search drops every record, no
engine call is submitted, no error is returned, and the segment state is
returned unchanged.  The watermark is required not to be the extreme
uint64 value 2^64 - 1: there the threshold watermark + 1 wraps to 0 in
the Go code and the whole batch is re-submitted instead. -/
theorem deleteImpl_reapply_noop (s : Segment) (st : CStatus)
    (pks : List PrimaryKey) (tss : List Timestamp)
    (hh : s.destroyed = false)
    (hwm : s.flushedDeletedTimestamp + 1 < 2 ^ 64)
    (hsorted : ∀ l, l < tss.length → ∀ k, k ≤ l → tss.getD k 0 ≤ tss.getD l 0)
    (hle : ∀ k, k < tss.length → tss.getD k 0 ≤ s.flushedDeletedTimestamp) :
    s.deleteImpl st pks tss = (.ok (), s, []) := by
  have hmod : (s.flushedDeletedTimestamp + 1) % 2 ^ 64 = s.flushedDeletedTimestamp + 1 :=
    Nat.mod_eq_of_lt hwm
  have hstart : (goSearch tss.length
      fun i => decide ((s.flushedDeletedTimestamp + 1) % 2 ^ 64 ≤ tss.getD i 0))
      = tss.length := by
    apply goSearch_all_false
    intro k hk
    have h2 := hle k hk
    have h3 : ¬ ((s.flushedDeletedTimestamp + 1) % 2 ^ 64 ≤ tss.getD k 0) := by
      rw [hmod]
      exact fun hcon => Nat.not_succ_le_self _ (le_trans hcon h2)
    exact decide_eq_false h3
  unfold Segment.deleteImpl
  rw [hh]
  simp only [Bool.false_eq_true, if_false, hstart, eq_self_iff_true, if_true]

/-- C5 witness: a concrete healthy segment with watermark 10 and the
sorted batch with timestamps [3, 7], all at or below the watermark. -/
theorem deleteImpl_reapply_noop_witness :
    Segment.deleteImpl ⟨11, .growing, false, false, ⟨[], true⟩, 10, none, []⟩ CStatus.ok
        [PrimaryKey.int64Pk 3, PrimaryKey.int64Pk 4] [3, 7] =
      (.ok (), ⟨11, .growing, false, false, ⟨[], true⟩, 10, none, []⟩, []) :=
  deleteImpl_reapply_noop ⟨11, .growing, false, false, ⟨[], true⟩, 10, none, []⟩
    CStatus.ok [PrimaryKey.int64Pk 3, PrimaryKey.int64Pk 4] [3, 7]
    rfl (by decide) (by decide) (by decide)

/-- C2: a segment made unhealthy by setUnhealthy still lets
UpdateFieldRawDataSize through to the native handle: at this concrete
destroyed segment the call is submitted to the engine (non-empty trace,
summing the binlog sizes 7 + 9) and the engine status is returned
instead of the unhealthy error, refuting the claim that after
setUnhealthy every operation returns the unhealthy error and never
dereferences the handle.  Every other handle-touching method in
segment.go re-checks health under the read lock first, so the claim
matches both the spec and the codebase discipline and this method is the
code bug (a use-after-destroy hazard on a freed handle). -/
theorem updateFieldRawDataSize_ignores_unhealthy :
    Segment.updateFieldRawDataSize
        (Segment.setUnhealthy ⟨42, .sealed, false, false, ⟨[], false⟩, 0, none, []⟩)
        CStatus.ok 3 ⟨101, [⟨10, "binlog1", 7⟩, ⟨5, "binlog2", 9⟩]⟩ =
      (.ok (), [.updateFieldRawDataSizeCall 101 3 16])
    ∧ (Segment.setUnhealthy
        ⟨42, .sealed, false, false, ⟨[], false⟩, 0, none, []⟩).destroyed = true :=
  ⟨rfl, rfl⟩

/-- C8: segmentPreInsert is a no-op returning offset 0 with no error and
no engine call on a non-growing (sealed) segment; on a growing segment
it fails with the unhealthy error when the segment is destroyed, fails
with a native error when the engine status is non-zero, and otherwise
returns the engine-reserved row offset. -/
theorem segmentPreInsert_cases (s : Segment) (st : CStatus) (engineOffset : Int)
    (n : Int) :
    (s.segmentType ≠ SegType.growing →
      s.segmentPreInsert st engineOffset n = (.ok 0, []))
    ∧ (s.segmentType = SegType.growing → s.destroyed = true →
      s.segmentPreInsert st engineOffset n = (.error (.unhealthy s.segmentID), []))
    ∧ (s.segmentType = SegType.growing → s.destroyed = false → st.errorCode = 0 →
      s.segmentPreInsert st engineOffset n = (.ok engineOffset, [.preInsertCall n]))
    ∧ (s.segmentType = SegType.growing → s.destroyed = false → st.errorCode ≠ 0 →
      s.segmentPreInsert st engineOffset n =
        (.error (.native "PreInsert failed"), [.preInsertCall n])) := by
  refine ⟨?_, ?_, ?_, ?_⟩
  · intro hty
    unfold Segment.segmentPreInsert
    rw [if_pos hty]
  · intro hty hd
    unfold Segment.segmentPreInsert
    rw [if_neg (by simp [hty]), hd, if_pos rfl]
  · intro hty hd hok
    unfold Segment.segmentPreInsert
    rw [if_neg (by simp [hty]), hd]
    simp [hok]
  · intro hty hd hbad
    unfold Segment.segmentPreInsert
    rw [if_neg (by simp [hty]), hd]
    simp [hbad]

/-- C8 witness: the sealed no-op case and the growing healthy success
case at concrete segments. -/
theorem segmentPreInsert_cases_witness :
    Segment.segmentPreInsert ⟨21, .sealed, false, false, ⟨[], false⟩, 0, none, []⟩
        CStatus.ok 5 4 = (.ok 0, [])
    ∧ Segment.segmentPreInsert ⟨22, .growing, false, false, ⟨[], false⟩, 0, none, []⟩
        CStatus.ok 5 4 = (.ok 5, [.preInsertCall 4]) :=
  ⟨(segmentPreInsert_cases ⟨21, .sealed, false, false, ⟨[], false⟩, 0, none, []⟩
      CStatus.ok 5 4).1 (by decide),
   (segmentPreInsert_cases ⟨22, .growing, false, false, ⟨[], false⟩, 0, none, []⟩
      CStatus.ok 5 4).2.2.1 rfl rfl rfl⟩

/-- C7 (counterexample): segmentLoadDeletedRecord — one of the two
delete entry points the claim covers — called with an empty primary-key
sequence on a segment whose tombstone buffer is still open returns
success, not an error: the buffering attempt comes first and absorbs
the empty input, so no malformed-input rejection happens. -/
theorem segmentLoadDeletedRecord_empty_ok :
    Segment.segmentLoadDeletedRecord
        ⟨7, .sealed, false, false, ⟨[], false⟩, 0, none, []⟩
        CStatus.ok [] [] 0 =
      some (.ok (), ⟨7, .sealed, false, false, ⟨[], false⟩, 0, none, []⟩, []) := rfl

/-- C7 (amended): segmentDelete rejects malformed input — an empty
primary-key sequence or key and timestamp sequences of unequal length —
with an error before any buffering or engine call, leaving the segment
unchanged; segmentLoadDeletedRecord performs no such up-front check: it
attempts buffering first, and while the buffer is unflushed it returns
success with no engine call for every input whose keys do not outnumber
its timestamps (the empty input included), and panics — no error
return — whenever keys outnumber timestamps. -/
theorem segmentDelete_rejects_malformed (s : Segment) (st : CStatus)
    (pks : List PrimaryKey) (tss : List Timestamp)
    (h : pks.length = 0 ∨ pks.length ≠ tss.length) :
    (∃ e, s.segmentDelete st pks tss = (.error e, s, []))
    ∧ ∀ (s2 : Segment) (st2 : CStatus) (pks2 : List PrimaryKey)
        (tss2 : List Timestamp) (rc : Int),
        s2.deleteBuffer.flushed = false →
        (pks2.length ≤ tss2.length →
          ∃ s3, s2.segmentLoadDeletedRecord st2 pks2 tss2 rc = some (.ok (), s3, []))
        ∧ (tss2.length < pks2.length →
          s2.segmentLoadDeletedRecord st2 pks2 tss2 rc = none) := by
  constructor
  · by_cases h0 : pks.length ≤ 0
    · exact ⟨.emptyPks, by unfold Segment.segmentDelete; rw [if_pos h0]⟩
    · have hne : pks.length ≠ tss.length := by
        rcases h with h | h
        · omega
        · exact h
      exact ⟨.lengthMismatch, by
        unfold Segment.segmentDelete
        rw [if_neg h0, if_pos hne]⟩
  · intro s2 st2 pks2 tss2 rc hfl
    constructor
    · intro hlen2
      unfold Segment.segmentLoadDeletedRecord DeleteRecords.tryAppend
      rw [if_neg (by simp [hfl]), if_neg (by omega)]
      exact ⟨_, rfl⟩
    · intro hlen2
      unfold Segment.segmentLoadDeletedRecord DeleteRecords.tryAppend
      rw [if_neg (by simp [hfl]), if_pos hlen2]

/-- C7 witness: the amended theorem at a concrete segment, once with an
empty key list and once with mismatched lengths. -/
theorem segmentDelete_rejects_malformed_witness :
    (∃ e, Segment.segmentDelete ⟨8, .growing, false, false, ⟨[], false⟩, 0, none, []⟩
        CStatus.ok [] [] = (.error e, ⟨8, .growing, false, false, ⟨[], false⟩, 0, none, []⟩, []))
    ∧ (∃ e, Segment.segmentDelete ⟨8, .growing, false, false, ⟨[], false⟩, 0, none, []⟩
        CStatus.ok [PrimaryKey.int64Pk 1] [4, 5] =
          (.error e, ⟨8, .growing, false, false, ⟨[], false⟩, 0, none, []⟩, [])) :=
  ⟨(segmentDelete_rejects_malformed _ CStatus.ok [] [] (Or.inl rfl)).1,
   (segmentDelete_rejects_malformed _ CStatus.ok [PrimaryKey.int64Pk 1] [4, 5]
      (Or.inr (by decide))).1⟩

/-- C6: isPKExist never misses a key the existence index holds: while
the segment is lazily loading its bloom filter it answers true for
every key, and otherwise it answers true as soon as the current
generation or any historical generation reports the key as possibly
present (absent keys may still get true, which the claim allows). -/
theorem isPKExist_no_false_negative (s : Segment) (pk : PrimaryKey)
    (h : s.lazyLoading = true
      ∨ (∃ st, s.currentStat = some st ∧ st.pkExist pk = true)
      ∨ (∃ st ∈ s.historyStats, st.pkExist pk = true)) :
    s.isPKExist pk = true := by
  unfold Segment.isPKExist
  rcases h with h | ⟨st, hst, hex⟩ | ⟨st, hmem, hex⟩
  · rw [h]
    simp
  · rw [hst]
    simp [hex]
  · by_cases hl : s.lazyLoading = true
    · rw [if_pos hl]
    · rw [if_neg hl]
      by_cases hc : (match s.currentStat with
          | some st2 => st2.pkExist pk
          | none => false) = true
      · rw [if_pos hc]
      · rw [if_neg hc]
        simp only [List.any_eq_true]
        exact ⟨st, hmem, hex⟩

/-- C6 witness: a lazily loading segment answers true for any key. -/
theorem isPKExist_no_false_negative_witness :
    (⟨5, .sealed, false, true, ⟨[], false⟩, 0, none, []⟩ : Segment).lazyLoading = true
    ∧ (⟨5, .sealed, false, true, ⟨[], false⟩, 0, none, []⟩ : Segment).isPKExist
        (.int64Pk 0) = true :=
  ⟨rfl, isPKExist_no_false_negative _ _ (Or.inl rfl)⟩

/-- C1 (counterexample): a successful direct deleteImpl call does not
advance the watermark: on this healthy segment with watermark 0 the
batch with timestamp 5 is fully applied (one engine delete call, which
succeeds), yet flushedDeletedTimestamp stays 0 instead of advancing to
the last applied timestamp 5 — deleteImpl never writes the watermark;
only the FlushDelete wrapper does. -/
theorem deleteImpl_does_not_advance_watermark :
    Segment.deleteImpl ⟨1, .growing, false, false, ⟨[], true⟩, 0, none, []⟩ CStatus.ok
        [PrimaryKey.int64Pk 7] [5] =
      (.ok (), ⟨1, .growing, false, false, ⟨[], true⟩, 0, none, []⟩,
        [.deleteCall (.intId [7]) [5]])
    ∧ (Segment.deleteImpl ⟨1, .growing, false, false, ⟨[], true⟩, 0, none, []⟩ CStatus.ok
        [PrimaryKey.int64Pk 7] [5]).2.1.flushedDeletedTimestamp = 0 := by
  constructor
  · rfl
  · rfl

/-- C1 (amended): for every deleteImpl call on a healthy segment whose
watermark is below the extreme uint64 value (so the threshold
watermark + 1 does not wrap), with equal-length keys and timestamps,
timestamps sorted ascending, a segment-wide uniform key kind (all int64
or all varChar, as the engine key-set wire format requires) and a
successful engine status, there is a cut index such that every record
before it has timestamp at or before the watermark and is dropped and
every record from it on has timestamp strictly above the watermark;
when everything is dropped the call succeeds with no engine call, and
otherwise the remaining keys are marshalled into the key-set wire
representation (int64 or string variant) and exactly one engine delete
call is submitted carrying the remaining suffix; in all cases the
segment state — watermark included — is returned unchanged: deleteImpl
itself never advances the watermark; the watermark advances to the last
(maximum) sorted buffered timestamp only through FlushDelete, when its
handler succeeds on a non-empty buffer. -/
theorem deleteImpl_filters_submits_once_state_unchanged (s : Segment) (st : CStatus)
    (pks : List PrimaryKey) (tss : List Timestamp)
    (hok : st.errorCode = 0) (hh : s.destroyed = false)
    (hwm : s.flushedDeletedTimestamp + 1 < 2 ^ 64)
    (hlen : pks.length = tss.length)
    (hsorted : ∀ l, l < tss.length → ∀ k, k ≤ l → tss.getD k 0 ≤ tss.getD l 0)
    (huniform : (∀ p ∈ pks, p.isInt64 = true) ∨ (∀ p ∈ pks, p.isInt64 = false)) :
    (∃ start, start ≤ tss.length
      ∧ (∀ k, k < start → tss.getD k 0 ≤ s.flushedDeletedTimestamp)
      ∧ (∀ k, start ≤ k → k < tss.length → s.flushedDeletedTimestamp < tss.getD k 0)
      ∧ (start = tss.length → s.deleteImpl st pks tss = (.ok (), s, []))
      ∧ (start < tss.length → ∃ ids, marshalIds (pks.drop start) = some ids
          ∧ s.deleteImpl st pks tss =
              (.ok (), s, [.deleteCall ids (tss.drop start)])))
    ∧ ∀ (s2 : Segment), s2.deleteBuffer.records ≠ [] →
        (s2.flushDelete st).1 = .ok () →
        (s2.flushDelete st).2.1.flushedDeletedTimestamp =
          ((goSortRecords s2.deleteBuffer.records).map DeleteRecord.timestamp).getD
            ((goSortRecords s2.deleteBuffer.records).length - 1) 0 := by
  constructor
  · have hmod : (s.flushedDeletedTimestamp + 1) % 2 ^ 64 = s.flushedDeletedTimestamp + 1 :=
      Nat.mod_eq_of_lt hwm
    have hmono : ∀ k l, k ≤ l → l < tss.length →
        (fun i => decide ((s.flushedDeletedTimestamp + 1) % 2 ^ 64 ≤ tss.getD i 0)) k
          = true →
        (fun i => decide ((s.flushedDeletedTimestamp + 1) % 2 ^ 64 ≤ tss.getD i 0)) l
          = true := by
      intro k l hkl hl hfk
      simp only [decide_eq_true_eq] at hfk ⊢
      exact le_trans hfk (hsorted l hl k hkl)
    obtain ⟨hle, hfalse, htrue⟩ := goSearch_boundary tss.length _ hmono
    refine ⟨goSearch tss.length
        (fun i => decide ((s.flushedDeletedTimestamp + 1) % 2 ^ 64 ≤ tss.getD i 0)),
      hle, ?_, ?_, ?_, ?_⟩
    · intro k hk
      have h2 := hfalse k hk
      simp only [hmod, decide_eq_false_iff_not] at h2
      exact Nat.lt_succ_iff.mp (Nat.not_le.mp h2)
    · intro k h1 h2
      have h3 := htrue k h1 h2
      simp only [hmod, decide_eq_true_eq] at h3
      exact Nat.lt_of_succ_le h3
    · intro hse
      unfold Segment.deleteImpl
      rw [hh]
      simp only [Bool.false_eq_true, if_false]
      rw [if_pos hse]
    · intro hlt
      have hse : ¬ ((goSearch tss.length
          fun i => decide ((s.flushedDeletedTimestamp + 1) % 2 ^ 64 ≤ tss.getD i 0))
          = tss.length) := Nat.ne_of_lt hlt
      have hdropne : pks.drop (goSearch tss.length
          fun i => decide ((s.flushedDeletedTimestamp + 1) % 2 ^ 64 ≤ tss.getD i 0))
          ≠ [] := by
        intro hnil
        have hdl := List.length_drop (goSearch tss.length
          fun i => decide ((s.flushedDeletedTimestamp + 1) % 2 ^ 64 ≤ tss.getD i 0)) pks
        rw [hnil] at hdl
        simp only [List.length_nil] at hdl
        omega
      rcases huniform with hall | hall
      · have hm := marshalIds_int64 (pks.drop (goSearch tss.length
            fun i => decide ((s.flushedDeletedTimestamp + 1) % 2 ^ 64 ≤ tss.getD i 0)))
          hdropne (fun p hp => hall p (List.drop_subset _ _ hp))
        refine ⟨_, hm, ?_⟩
        unfold Segment.deleteImpl
        rw [hh]
        simp only [Bool.false_eq_true, if_false]
        rw [if_neg hse, hm]
        simp [hok]
      · have hm := marshalIds_varChar (pks.drop (goSearch tss.length
            fun i => decide ((s.flushedDeletedTimestamp + 1) % 2 ^ 64 ≤ tss.getD i 0)))
          hdropne (fun p hp => hall p (List.drop_subset _ _ hp))
        refine ⟨_, hm, ?_⟩
        unfold Segment.deleteImpl
        rw [hh]
        simp only [Bool.false_eq_true, if_false]
        rw [if_neg hse, hm]
        simp [hok]
  · intro s2 hne hok2
    have hlen2 : ¬ ((goSortRecords s2.deleteBuffer.records).map DeleteRecord.pk).length = 0 := by
      have hp := (goSortRecords_perm s2.deleteBuffer.records).length_eq
      simp only [List.length_map]
      intro hzero
      rw [hzero] at hp
      exact hne (List.eq_nil_of_length_eq_zero hp.symm)
    simp only [Segment.flushDelete, DeleteRecords.flush] at hok2 ⊢
    rcases hdel : s2.deleteImpl st
        ((goSortRecords s2.deleteBuffer.records).map DeleteRecord.pk)
        ((goSortRecords s2.deleteBuffer.records).map DeleteRecord.timestamp)
      with ⟨res3, s3, tr3⟩
    rw [if_neg hlen2] at hok2 ⊢
    cases res3 with
    | error e =>
      rw [hdel] at hok2
      simp at hok2
    | ok u => simp [List.length_map]

/-- C1 witness: the amended theorem applied at healthy segments with
watermark 10 and sorted timestamps [5, 20], once with int64 keys and
once with varChar keys; both calls succeed (dropping the record at
timestamp 5 and submitting the remaining key). -/
theorem deleteImpl_filters_witness :
    (Segment.deleteImpl ⟨1, .growing, false, false, ⟨[], true⟩, 10, none, []⟩ CStatus.ok
        [PrimaryKey.int64Pk 1, PrimaryKey.int64Pk 2] [5, 20]).1 = .ok ()
    ∧ (Segment.deleteImpl ⟨2, .growing, false, false, ⟨[], true⟩, 10, none, []⟩ CStatus.ok
        [PrimaryKey.varCharPk "a", PrimaryKey.varCharPk "b"] [5, 20]).1 = .ok () := by
  constructor
  · obtain ⟨⟨start, hb, hdropped, hkept, hfull, hpart⟩, hflush⟩ :=
      deleteImpl_filters_submits_once_state_unchanged
        ⟨1, .growing, false, false, ⟨[], true⟩, 10, none, []⟩ CStatus.ok
        [PrimaryKey.int64Pk 1, PrimaryKey.int64Pk 2] [5, 20]
        rfl rfl (by decide) rfl (by decide) (Or.inl (by decide))
    by_cases hse : start = ([5, 20] : List Timestamp).length
    · rw [hfull hse]
    · obtain ⟨ids, hm, heq⟩ := hpart (lt_of_le_of_ne hb hse)
      rw [heq]
  · obtain ⟨⟨start, hb, hdropped, hkept, hfull, hpart⟩, hflush⟩ :=
      deleteImpl_filters_submits_once_state_unchanged
        ⟨2, .growing, false, false, ⟨[], true⟩, 10, none, []⟩ CStatus.ok
        [PrimaryKey.varCharPk "a", PrimaryKey.varCharPk "b"] [5, 20]
        rfl rfl (by decide) rfl (by decide) (Or.inr (by decide))
    by_cases hse : start = ([5, 20] : List Timestamp).length
    · rw [hfull hse]
    · obtain ⟨ids, hm, heq⟩ := hpart (lt_of_le_of_ne hb hse)
      rw [heq]

/-- C3 (counterexample): flushing the 8-record buffer unstableRecords
hands the apply handler the keys in order [6, 1, 0, 2, 3, 4, 5, 7]: the
two records with equal timestamp 5 were buffered as key 0 before key 1,
yet arrive as 1 before 0, because sort.Sort is not stable (the Go 1.18
gap-6 shell pre-pass swaps index 6 under index 0, carrying key 0 past
key 1 before the insertion sort runs); a stable sort would have produced
[6, 0, 1, 2, 3, 4, 5, 7]. -/
theorem flush_not_stable_counterexample :
    (DeleteRecords.flush ⟨unstableRecords, false⟩
        (fun pks tss => (.ok (), (pks, tss)))).2.2.1 =
      [PrimaryKey.int64Pk 6, .int64Pk 1, .int64Pk 0, .int64Pk 2, .int64Pk 3,
       .int64Pk 4, .int64Pk 5, .int64Pk 7]
    ∧ ([PrimaryKey.int64Pk 6, .int64Pk 1, .int64Pk 0, .int64Pk 2, .int64Pk 3,
        .int64Pk 4, .int64Pk 5, .int64Pk 7] :
        List PrimaryKey) ≠
      [PrimaryKey.int64Pk 6, .int64Pk 0, .int64Pk 1, .int64Pk 2, .int64Pk 3,
       .int64Pk 4, .int64Pk 5, .int64Pk 7] := by
  constructor
  · rfl
  · decide

/-- C3 (amended): Flush reorders the buffered delete records into
ascending timestamp order — a sorted permutation of the buffer, though
not necessarily the stable one, since sort.Sort may reorder records
with equal timestamps — and invokes the apply handler exactly once,
with the key and timestamp projections of that reordered buffer: for
any handler, the instrumented invocation log after Flush is the
one-element list holding exactly those two sequences. -/
theorem flush_sorts_ascending_applies_once {σ : Type} (r : DeleteRecords)
    (handler : List PrimaryKey → List Timestamp → Except SegErr Unit × σ) :
    (goSortRecords r.records).Perm r.records
    ∧ List.Sorted recLE (goSortRecords r.records)
    ∧ (DeleteRecords.flush r (instrumented handler)).2.2.2 =
        [((goSortRecords r.records).map DeleteRecord.pk,
          (goSortRecords r.records).map DeleteRecord.timestamp)] := by
  refine ⟨goSortRecords_perm _, goSortRecords_sorted _, ?_⟩
  simp only [DeleteRecords.flush, instrumented]
  rcases hx : handler ((goSortRecords r.records).map DeleteRecord.pk)
      ((goSortRecords r.records).map DeleteRecord.timestamp) with ⟨res, out⟩
  cases res <;> simp

/-- C4: if the apply handler fails, Flush surfaces exactly that error,
the buffer keeps all its records (reordered in place by the sort, a
permutation of what was buffered) and stays unflushed, so TryAppend
still accepts any well-formed record batch (keys not outnumbering
timestamps, the panic-free domain of the Go loop) and the flush may be
retried; if the handler succeeds, the buffer is cleared and flushed is
set, after which TryAppend returns false for every input whatsoever
(the flushed check precedes the append loop, so no input is ever
touched). -/
theorem flush_failure_keeps_buffer_success_flushes {σ : Type} (r : DeleteRecords)
    (handler : List PrimaryKey → List Timestamp → Except SegErr Unit × σ)
    (hUnflushed : r.flushed = false) :
    (∀ e out, handler ((goSortRecords r.records).map DeleteRecord.pk)
        ((goSortRecords r.records).map DeleteRecord.timestamp) = (.error e, out) →
      DeleteRecords.flush r handler = (.error e, ⟨goSortRecords r.records, false⟩, out)
      ∧ (goSortRecords r.records).Perm r.records
      ∧ ∀ pks2 tss2, pks2.length ≤ tss2.length →
          DeleteRecords.tryAppend ⟨goSortRecords r.records, false⟩ pks2 tss2 =
            some (true, ⟨goSortRecords r.records ++ List.zipWith DeleteRecord.mk pks2 tss2,
              false⟩))
    ∧ (∀ out, handler ((goSortRecords r.records).map DeleteRecord.pk)
        ((goSortRecords r.records).map DeleteRecord.timestamp) = (.ok (), out) →
      DeleteRecords.flush r handler = (.ok (), ⟨[], true⟩, out)
      ∧ ∀ pks2 tss2, DeleteRecords.tryAppend ⟨[], true⟩ pks2 tss2 =
          some (false, ⟨[], true⟩)) := by
  constructor
  · intro e out hx
    refine ⟨?_, goSortRecords_perm _, ?_⟩
    · simp only [DeleteRecords.flush, hx, hUnflushed]
    · intro pks2 tss2 hlen2
      unfold DeleteRecords.tryAppend
      rw [if_neg (by simp), if_neg (by omega)]
  · intro out hx
    refine ⟨?_, ?_⟩
    · simp only [DeleteRecords.flush, hx]
    · intro pks2 tss2
      unfold DeleteRecords.tryAppend
      rw [if_pos rfl]

/-- C4 witness: a concrete single-record buffer, once with a failing
handler (buffer kept, still unflushed, error surfaced) and once with a
succeeding one (buffer cleared and flushed). -/
theorem flush_failure_witness :
    DeleteRecords.flush ⟨[⟨PrimaryKey.int64Pk 1, 3⟩], false⟩
        (fun _ _ => ((.error .emptyPks : Except SegErr Unit), ())) =
      (.error .emptyPks, ⟨[⟨PrimaryKey.int64Pk 1, 3⟩], false⟩, ())
    ∧ DeleteRecords.flush ⟨[⟨PrimaryKey.int64Pk 1, 3⟩], false⟩
        (fun _ _ => ((.ok () : Except SegErr Unit), ())) =
      (.ok (), ⟨[], true⟩, ()) := by
  constructor
  · have h := (flush_failure_keeps_buffer_success_flushes
      ⟨[⟨PrimaryKey.int64Pk 1, 3⟩], false⟩
      (fun _ _ => ((.error .emptyPks : Except SegErr Unit), ())) rfl).1 .emptyPks () rfl
    rw [h.1]
    rfl
  · have h := (flush_failure_keeps_buffer_success_flushes
      ⟨[⟨PrimaryKey.int64Pk 1, 3⟩], false⟩
      (fun _ _ => ((.ok () : Except SegErr Unit), ())) rfl).2 () rfl
    rw [h.1]

theorem deleteImpl_state_eq (s : Segment) (st : CStatus) (pks : List PrimaryKey)
    (tss : List Timestamp) : (s.deleteImpl st pks tss).2.1 = s := by
  simp only [Segment.deleteImpl]
  repeat' split
  all_goals rfl

theorem segmentDelete_stats_frame (s : Segment) (st : CStatus) (pks : List PrimaryKey)
    (tss : List Timestamp) :
    (s.segmentDelete st pks tss).2.1.lazyLoading = s.lazyLoading
    ∧ (s.segmentDelete st pks tss).2.1.currentStat = s.currentStat
    ∧ (s.segmentDelete st pks tss).2.1.historyStats = s.historyStats := by
  simp only [Segment.segmentDelete]
  repeat' split
  all_goals first
    | exact ⟨rfl, rfl, rfl⟩
    | (rw [deleteImpl_state_eq]; exact ⟨rfl, rfl, rfl⟩)

theorem flushDelete_stats_frame (s : Segment) (st : CStatus) :
    (s.flushDelete st).2.1.lazyLoading = s.lazyLoading
    ∧ (s.flushDelete st).2.1.currentStat = s.currentStat
    ∧ (s.flushDelete st).2.1.historyStats = s.historyStats := by
  simp only [Segment.flushDelete, DeleteRecords.flush]
  rcases hdel : s.deleteImpl st
      ((goSortRecords s.deleteBuffer.records).map DeleteRecord.pk)
      ((goSortRecords s.deleteBuffer.records).map DeleteRecord.timestamp)
    with ⟨res3, s3, tr3⟩
  have hs3 : s3 = s := by
    have := deleteImpl_state_eq s st
      ((goSortRecords s.deleteBuffer.records).map DeleteRecord.pk)
      ((goSortRecords s.deleteBuffer.records).map DeleteRecord.timestamp)
    rw [hdel] at this
    exact this
  by_cases hz : ((goSortRecords s.deleteBuffer.records).map DeleteRecord.pk).length = 0
  · rw [if_pos hz]
    exact ⟨rfl, rfl, rfl⟩
  · rw [if_neg hz]
    cases res3 <;> exact ⟨by rw [hs3], by rw [hs3], by rw [hs3]⟩

theorem isPKExist_congr {s1 s2 : Segment} (pk : PrimaryKey)
    (h1 : s1.lazyLoading = s2.lazyLoading) (h2 : s1.currentStat = s2.currentStat)
    (h3 : s1.historyStats = s2.historyStats) : s1.isPKExist pk = s2.isPKExist pk := by
  unfold Segment.isPKExist
  rw [h1, h2, h3]

theorem updateBloomFilter_currentStat_reports (s : Segment) (pk : PrimaryKey) :
    ∃ st2, (s.updateBloomFilter [pk]).currentStat = some st2
      ∧ st2.pkExist pk = true := by
  unfold Segment.updateBloomFilter
  refine ⟨_, rfl, ?_⟩
  cases pk with
  | int64Pk v =>
    simp [PkStatistics.pkExist, encodePk, PkStatistics.updateMinMax, List.mem_append]
  | varCharPk str =>
    simp [PkStatistics.pkExist, encodePk, PkStatistics.updateMinMax, List.mem_append]

theorem isPKExist_true_of_current (s : Segment) (pk : PrimaryKey) (st2 : PkStatistics)
    (hst : s.currentStat = some st2) (hex : st2.pkExist pk = true) :
    s.isPKExist pk = true := by
  unfold Segment.isPKExist
  rw [hst]
  by_cases hl : s.lazyLoading = true
  · rw [if_pos hl]
  · rw [if_neg hl]
    simp [hex]

/-- C9: the delete operations — segmentDelete, deleteImpl and
FlushDelete — leave the primary-key existence index untouched: the
current and historical generations (and with them every isPKExist
answer) are exactly those of the input segment, and a key first recorded
through updateBloomFilter and then deleted through segmentDelete still
reports present. -/
theorem delete_ops_preserve_pk_index (s : Segment) (st : CStatus)
    (pks : List PrimaryKey) (tss : List Timestamp) (pk : PrimaryKey) (ts : Timestamp) :
    ((s.segmentDelete st pks tss).2.1.isPKExist pk = s.isPKExist pk)
    ∧ ((s.deleteImpl st pks tss).2.1.isPKExist pk = s.isPKExist pk)
    ∧ ((s.flushDelete st).2.1.isPKExist pk = s.isPKExist pk)
    ∧ (((s.updateBloomFilter [pk]).segmentDelete st [pk] [ts]).2.1.isPKExist pk
        = true) := by
  have hsd := segmentDelete_stats_frame s st pks tss
  have hfd := flushDelete_stats_frame s st
  refine ⟨isPKExist_congr pk hsd.1 hsd.2.1 hsd.2.2, ?_,
    isPKExist_congr pk hfd.1 hfd.2.1 hfd.2.2, ?_⟩
  · rw [deleteImpl_state_eq]
  · have hsd2 := segmentDelete_stats_frame (s.updateBloomFilter [pk]) st [pk] [ts]
    rw [isPKExist_congr pk hsd2.1 hsd2.2.1 hsd2.2.2]
    obtain ⟨st2, hst, hex⟩ := updateBloomFilter_currentStat_reports s pk
    exact isPKExist_true_of_current _ pk st2 hst hex

theorem getFieldDataPathLoop_oob : ∀ (bs : List Binlog) (off : Int),
    (∀ b ∈ bs, 0 ≤ b.entriesNum) → (bs.map Binlog.entriesNum).sum ≤ off →
    getFieldDataPathLoop bs off = ("", off - (bs.map Binlog.entriesNum).sum)
  | [], off, _, _ => by simp [getFieldDataPathLoop]
  | b :: rest, off, hnn, hsum => by
    have hb : 0 ≤ b.entriesNum := hnn b (by simp)
    have hrest : 0 ≤ (rest.map Binlog.entriesNum).sum :=
      List.sum_nonneg (by
        intro x hx
        simp only [List.mem_map] at hx
        obtain ⟨b2, hb2, rfl⟩ := hx
        exact hnn b2 (by simp [hb2]))
    simp only [List.map_cons, List.sum_cons] at hsum
    rw [getFieldDataPathLoop, if_neg (by omega)]
    have hrec := getFieldDataPathLoop_oob rest (off - b.entriesNum)
      (fun b2 hb2 => hnn b2 (by simp [hb2])) (by omega)
    rw [hrec]
    simp only [List.map_cons, List.sum_cons, Prod.mk.injEq, true_and]
    omega

/-- C10: for any indexed-field binlog list with non-negative entry
counts and any row offset at or beyond the total entry count,
getFieldDataPath walks off the binlog list and returns the empty data
path together with the residual offset (the input offset minus the
total entry count) with no error signalled, and fillIndexedFieldsData
on a field that reaches hydration (vector type, index loaded, no raw
data, binlog info registered) then issues exactly one remote read
request built from that empty path — it does not reject the
out-of-range offset. -/
theorem getFieldDataPath_oob_hydrates_empty_path (s : Segment)
    (info : IndexedFieldInfo) (offset : Int) (f : FieldMeta)
    (hasIdx hasRaw : Int → Bool) (infos : Int → Option IndexedFieldInfo)
    (vcm : ReadReq → Except SegErr Unit)
    (hnn : ∀ b ∈ info.fieldBinlog.binlogs, 0 ≤ b.entriesNum)
    (hoob : (info.fieldBinlog.binlogs.map Binlog.entriesNum).sum ≤ offset)
    (hvec : isVectorType f.dataType = true)
    (hidx : hasIdx f.fieldID = true) (hraw : hasRaw f.fieldID = false)
    (hinfo : infos f.fieldID = some info) :
    s.getFieldDataPath info offset =
      ("", offset - (info.fieldBinlog.binlogs.map Binlog.entriesNum).sum)
    ∧ (s.fillIndexedFieldsData hasIdx hasRaw infos vcm [f] [offset]).2 =
        [fillFieldDataReq f.dataType f.dim ""
          (offset - (info.fieldBinlog.binlogs.map Binlog.entriesNum).sum)]
    ∧ ReadReq.path (fillFieldDataReq f.dataType f.dim ""
        (offset - (info.fieldBinlog.binlogs.map Binlog.entriesNum).sum)) = "" := by
  have hpath : s.getFieldDataPath info offset =
      ("", offset - (info.fieldBinlog.binlogs.map Binlog.entriesNum).sum) :=
    getFieldDataPathLoop_oob info.fieldBinlog.binlogs offset hnn hoob
  refine ⟨hpath, ?_, ?_⟩
  · simp only [Segment.fillIndexedFieldsData, fillFieldsLoop, hvec, hidx, hraw, hinfo,
      Bool.not_true, Bool.false_eq_true, if_false, fillOffsetsLoop, hpath]
    rcases vcm (fillFieldDataReq f.dataType f.dim ""
        (offset - (info.fieldBinlog.binlogs.map Binlog.entriesNum).sum)) with e | u
    · rfl
    · rfl
  · cases hty : f.dataType <;> rfl

/-- C10 witness: a segment with one 10-entry binlog, a float-vector
field of dimension 128 and row offset 15: the path walk returns the
empty path with residual 5, and hydration issues the single read
request at byte offset 5 * 512 with the empty path. -/
theorem getFieldDataPath_oob_witness :
    Segment.getFieldDataPath ⟨9, .sealed, false, false, ⟨[], false⟩, 0, none, []⟩
        ⟨⟨101, [⟨10, "binlogA", 0⟩]⟩⟩ 15 = ("", 5)
    ∧ (Segment.fillIndexedFieldsData ⟨9, .sealed, false, false, ⟨[], false⟩, 0, none, []⟩
        (fun _ => true) (fun _ => false)
        (fun i => if i = 101 then some ⟨⟨101, [⟨10, "binlogA", 0⟩]⟩⟩ else none)
        (fun _ => .ok ()) [⟨101, .floatVector, 128⟩] [15]).2 =
      [.readAt "" (5 * (128 * 4)) (128 * 4)] := by
  have h := getFieldDataPath_oob_hydrates_empty_path
    ⟨9, .sealed, false, false, ⟨[], false⟩, 0, none, []⟩
    ⟨⟨101, [⟨10, "binlogA", 0⟩]⟩⟩ 15 ⟨101, .floatVector, 128⟩
    (fun _ => true) (fun _ => false)
    (fun i => if i = 101 then some ⟨⟨101, [⟨10, "binlogA", 0⟩]⟩⟩ else none)
    (fun _ => .ok ()) (by decide) (by decide) rfl rfl rfl (by decide)
  refine ⟨?_, ?_⟩
  · rw [h.1]
    rfl
  · rw [h.2.1]
    rfl

end Milvus
